import Mathlib

/-!
Verification of the grandscatter projection engine.

This file shallowly embeds the core of the grandscatter repository:

* the linear-algebra kernel (`src/linalg.ts`): `dot`, `norm2`, `normalizeVec`,
  and the priority-row Gram-Schmidt `orthogonalize`;
* the `Projection` state machine (`src/Projection.ts`): `setMatrix`, `setAxis`
  with its column-2 sign-stability correction, `flipAxis`, `depthScale`;
* the `PerspectiveCamera.depthScale` clamp (`src/Projection.ts` / index);
* the lasso hit-test `pointsInPolygon` (`src/Lasso.ts`);
* the demand-driven render scheduler (`Scatterplot.#markDirty` / `pause` /
  `play`) as an explicit state machine;
* the per-point visibility alpha of the frame builder (`Scatterplot.#render`).

Real-valued vectors are `Fin n → ℝ` and matrices are row-indexed
`Fin n → Fin n → ℝ`; JavaScript `Array` mutation becomes functional update.
The exact real semantics stands in for IEEE floats, as the spec's tolerance
statements (1e-10) indicate.
-/

namespace Grandscatter

noncomputable section

/-- A length-`n` vector of reals (one row of the projection matrix). -/
abbrev Vec (n : ℕ) := Fin n → ℝ

/-- An `n × n` matrix, indexed row-first, as in the source's `number[][]`. -/
abbrev Mat (n : ℕ) := Fin n → Vec n

variable {n : ℕ}

/-- `identity(n)` from `src/linalg.ts`: the `n × n` identity matrix. -/
def identityMat (n : ℕ) : Mat n := fun i j => if i = j then 1 else 0

/-- `dot(u, v)` from `src/linalg.ts`: sum of pairwise products. -/
def dot (u v : Vec n) : ℝ := ∑ i, u i * v i

/-- `norm2(v)` from `src/linalg.ts`: `Math.sqrt(dot(v, v))`. -/
def norm2 (v : Vec n) : ℝ := Real.sqrt (dot v v)

/-- `normalizeVec(v)` from `src/linalg.ts`: returns `v` unchanged when the
norm is `<= 0` (degenerate), else divides every entry by the norm. -/
def normalizeVec (v : Vec n) : Vec n :=
  if norm2 v ≤ 0 then v else fun j => v j / norm2 v

/-- The row swap `[m[0], m[k]] = [m[k], m[0]]` used by `orthogonalize`:
row `p` of the result is row `swap a b p` of `M`. -/
def rowSwap (M : Mat n) (a b : Fin n) : Mat n := fun p => M (Equiv.swap a b p)

/-- The inner `j`-loop of `orthogonalize`: starting from the current value of
row `i` (here `v`), subtract in turn the projection onto each already-processed
row `m j` for `j` in `js`, skipping rows with `dot(m[j], m[j]) <= 0`. -/
def projectOut (m : Mat n) (js : List (Fin n)) (v : Vec n) : Vec n :=
  js.foldl
    (fun w j =>
      if 0 < dot (m j) (m j) then
        fun t => w t - dot (m j) w / dot (m j) (m j) * m j t
      else w)
    v

/-- The row loop of `orthogonalize`: process the indices in `todo` in order,
replacing each row by the normalization of its `projectOut` against the rows
already processed (accumulated, in order, in `processed`).  With
`processed = []` the first index is simply normalized, exactly as the source
normalizes row 0 before entering its `i = 1 .. n-1` loop. -/
def gsLoop (m : Mat n) : List (Fin n) → List (Fin n) → Mat n
  | _, [] => m
  | processed, t :: rest =>
      gsLoop (Function.update m t (normalizeVec (projectOut m processed (m t))))
        (processed ++ [t]) rest

/-- `orthogonalize(matrix, priorityRowIndex)` from `src/linalg.ts`: swap the
priority row to position 0, normalize row 0, orthogonalize rows `1 .. n-1`
in position order against all earlier rows, then swap back. -/
def orthogonalize (M : Mat n) (k : Fin n) : Mat n :=
  let z : Fin n := ⟨0, lt_of_le_of_lt (Nat.zero_le _) k.isLt⟩
  rowSwap (gsLoop (rowSwap M z k) [] (List.finRange n)) z k

/-- Modified Gram-Schmidt processing the original row indices in the explicit
`order` given, each row orthogonalized against all previously processed rows
(in processing order) and then normalized; zero-norm rows are left as-is.
Instantiated below both for the spec's claimed order and the code's order. -/
def mgsOrdered (M : Mat n) (order : List (Fin n)) : Mat n := gsLoop M [] order

/-- The reference orthogonalization exactly as the spec words it: the priority
row `k` is normalized first and otherwise left unchanged in direction, and
every *other* row is processed in increasing index order, each orthogonalized
against all previously processed rows (including row `k`) before being
normalized. -/
def specMGS (M : Mat n) (k : Fin n) : Mat n :=
  mgsOrdered M (k :: (List.finRange n).filter (fun j => j ≠ k))

/-- The processing order the code actually uses: positions `0, 1, …, n-1`
seen through the swap of rows `0` and `k`, i.e. original rows
`k, 1, …, k-1, 0, k+1, …, n-1`. -/
def codeOrder (k : Fin n) : List (Fin n) :=
  let z : Fin n := ⟨0, lt_of_le_of_lt (Nat.zero_le _) k.isLt⟩
  (List.finRange n).map (Equiv.swap z k)

/-- `Projection.getMatrix()`: returns (a clone of) the current matrix. -/
def getMatrix (M : Mat n) : Mat n := M

/-- `matrix.map((row) => row[t])`: the `t`-th column of `M` as a vector. -/
def column (M : Mat n) (t : Fin n) : Vec n := fun r => M r t

/-- `Projection.setMatrix(m)`: clone (immaterial here) and orthogonalize with
default priority row 0.  (`Projection` always has `ndim ≥ 1`; the degenerate
`n = 0` branch only makes the definition total.) -/
def setMatrix (M : Mat n) : Mat n :=
  if h : 0 < n then orthogonalize M ⟨0, h⟩ else M

/-- `Projection.flipAxis(i)`: negate every entry of row `i` in place. -/
def flipAxis (M : Mat n) (i : Fin n) : Mat n :=
  Function.update M i (fun j => -(M i j))

/-- The correction loop `matrix[j][2] *= -1` of `setAxis`: negate one entire
column of the matrix. -/
def negCol2 (M1 : Mat n) (idx2 : Fin n) : Mat n :=
  fun r t => if t = idx2 then -(M1 r t) else M1 r t

/-- `Projection.setAxis(i, vec)` from `src/Projection.ts`: capture the old
column 2 (when `ndim >= 3`), replace row `i` by `vec`, re-orthogonalize with
row `i` as priority, then, if the old and new column-2 vectors have negative
dot product, negate the entire new column 2 across all rows. -/
def setAxis (M : Mat n) (i : Fin n) (v : Vec n) : Mat n :=
  if h : 3 ≤ n then
    if dot (column M ⟨2, by omega⟩)
        (column (orthogonalize (Function.update M i v) i) ⟨2, by omega⟩) < 0 then
      negCol2 (orthogonalize (Function.update M i v) i) ⟨2, by omega⟩
    else orthogonalize (Function.update M i v) i
  else orthogonalize (Function.update M i v) i

/-- The trigger of `setAxis`'s sign-stability correction: `ndim ≥ 3` and the
dot product of the old and re-orthogonalized column-2 vectors is negative. -/
def setAxisFlips (M : Mat n) (i : Fin n) (v : Vec n) : Prop :=
  if h : 3 ≤ n then
    dot (column M ⟨2, by omega⟩)
      (column (orthogonalize (Function.update M i v) i) ⟨2, by omega⟩) < 0
  else False

/-- Exact row-orthonormality: the Gram matrix of the rows is the identity. -/
def OrthonormalRows (M : Mat n) : Prop :=
  ∀ i j : Fin n, dot (M i) (M j) = if i = j then 1 else 0

/-- The spec's numerical orthonormality: pairwise row dot products within
`1e-10` of `0` and row norms within `1e-10` of `1`. -/
def TolOrthonormal (M : Mat n) : Prop :=
  (∀ i j : Fin n, i ≠ j → |dot (M i) (M j)| ≤ 1 / 10 ^ 10) ∧
    ∀ i : Fin n, |norm2 (M i) - 1| ≤ 1 / 10 ^ 10

/-- `PerspectiveCamera.depthScale(z)`: `focalLength / (focalLength +
(cameraZ - z))`, then clamped below by `minDepthScale` and above by `1`
(two sequential `if` tests, as in the source). -/
def cameraDepthScale (cameraZ focalLength minDepthScale z : ℝ) : ℝ :=
  let scale := focalLength / (focalLength + (cameraZ - z))
  if scale < minDepthScale then minDepthScale
  else if 1 < scale then 1
  else scale

/-- `Projection.depthScale(data, cameraZ, focalLength, min)` from the
per-point variant: all `1`s when `ndim < 3`, else the clamped perspective
formula applied to each point's projected depth `dot(data[i], col2)`. -/
def projDepthScale (M : Mat n) (data : List (Vec n)) (cameraZ focalLength min : ℝ) :
    List ℝ :=
  if h : 3 ≤ n then
    data.map fun row =>
      cameraDepthScale cameraZ focalLength min (dot row (fun r => M r ⟨2, by omega⟩))
  else data.map fun _ => (1 : ℝ)

/-- Concrete input for the `setAxis` analysis: the negated third standard
basis vector of `ℝ³`. -/
def vFlip : Vec 3 := ![0, 0, -1]

/-- Concrete matrix (linearly independent rows) distinguishing the code's
Gram-Schmidt processing order from the spec's increasing-index order. -/
def mMix : Mat 3 := ![![1, 1, 0], ![1, 0, 0], ![0, 0, 1]]

end

/-! ## Lasso hit-testing (`src/Lasso.ts`), over exact rationals -/

/-- One iteration of the ray-casting edge test in `pointsInPolygon`: with
current vertex `p` and previous vertex `q` (cyclically), toggle when the
horizontal ray from `(x, y)` to `+∞` crosses edge `q → p`:
`(yi > y) !== (yj > y) && x < (xj - xi) * (y - yi) / (yj - yi) + xi`. -/
def edgeCross (x y : ℚ) (p q : ℚ × ℚ) : Bool :=
  (decide (y < p.2) != decide (y < q.2)) &&
    decide (x < (q.1 - p.1) * (y - p.2) / (q.2 - p.2) + p.1)

/-- The ray-casting loop: the source iterates `i = 0 .. n-1` with `j` the
cyclically previous index (`j = n-1` for `i = 0`, else `i-1`).  Here `q`
threads the previous vertex and `l` the remaining current vertices. -/
def rayCastAux (x y : ℚ) : ℚ × ℚ → List (ℚ × ℚ) → Bool → Bool
  | _, [], inside => inside
  | q, p :: rest, inside =>
      rayCastAux x y p rest (if edgeCross x y p q then !inside else inside)

/-- Crossing-number parity of `(x, y)` in `polygon`: the inner loop of
`pointsInPolygon`, started with `inside = false` and the previous vertex
being the last vertex of the polygon. -/
def rayCast (polygon : List (ℚ × ℚ)) (x y : ℚ) : Bool :=
  match polygon with
  | [] => false
  | q :: rest => rayCastAux x y ((q :: rest).getLastD q) (q :: rest) false

/-- Fold of `Math.min` over a list from its first element: equal to the
source's fold from `Infinity` for the nonempty lists it is applied to. -/
def listMin (l : List ℚ) : ℚ := l.foldl min (l.headD 0)

/-- Fold of `Math.max` over a list from its first element: equal to the
source's fold from `-Infinity` for the nonempty lists it is applied to. -/
def listMax (l : List ℚ) : ℚ := l.foldl max (l.headD 0)

/-- `pointsInPolygon(positions, npoint, polygon, order)` from `src/Lasso.ts`:
empty for polygons of fewer than 3 vertices; otherwise, for each slot
`si < npoint` (in increasing order), read `(positions[2si], positions[2si+1])`,
skip it when outside the polygon's axis-aligned bounding box, test
crossing-number parity, and collect `order[si]` for the points inside. -/
def pointsInPolygon (positions : List ℚ) (npoint : ℕ) (polygon : List (ℚ × ℚ))
    (order : List ℕ) : List ℕ :=
  if polygon.length < 3 then []
  else
    let xs := polygon.map Prod.fst
    let ys := polygon.map Prod.snd
    ((List.range npoint).filter fun si =>
        let x := positions.getD (2 * si) 0
        let y := positions.getD (2 * si + 1) 0
        if x < listMin xs ∨ listMax xs < x ∨ y < listMin ys ∨ listMax ys < y then
          false
        else rayCast polygon x y).map
      fun si => order.getD si 0

/-- The result the spec's contract describes: the `order[si]` for exactly
those slots `si < npoint` whose position is strictly inside the polygon by
crossing-number (ray-casting) parity — no bounding-box pre-filter. -/
def parityInside (positions : List ℚ) (npoint : ℕ) (polygon : List (ℚ × ℚ))
    (order : List ℕ) : List ℕ :=
  ((List.range npoint).filter fun si =>
      rayCast polygon (positions.getD (2 * si) 0) (positions.getD (2 * si + 1) 0)).map
    fun si => order.getD si 0

/-- The square polygon of the test suite: `[[10,10],[100,10],[100,100],[10,100]]`. -/
def squareTest : List (ℚ × ℚ) := [(10, 10), (100, 10), (100, 100), (10, 100)]

/-- The concave L-shaped polygon of the test suite. -/
def lshapeTest : List (ℚ × ℚ) :=
  [(0, 0), (100, 0), (100, 50), (50, 50), (50, 100), (0, 100)]

/-! ## Render scheduler (`Scatterplot.#markDirty` / `play` / `pause`) -/

/-- Scheduler state: `playing` is `Scatterplot.#playing`, `pending` is
whether `#pendingFrame` holds a scheduled `requestAnimationFrame` id
(`0` meaning none), and `frames` counts completed `#render()` builds. -/
structure SchedState where
  playing : Bool
  pending : Bool
  frames : ℕ
  deriving DecidableEq

/-- `#markDirty()`: a no-op unless rendering is enabled and no frame callback
is pending; otherwise schedule exactly one frame callback. -/
def markDirty (s : SchedState) : SchedState :=
  if !s.playing || s.pending then s else { s with pending := true }

/-- The scheduled frame callback firing: clears the pending flag, then builds
one frame if still playing.  When nothing is scheduled nothing can fire. -/
def fireFrame (s : SchedState) : SchedState :=
  if s.pending then
    { s with pending := false, frames := s.frames + (if s.playing then 1 else 0) }
  else s

/-- `pause()`: disable rendering and cancel any pending scheduled callback. -/
def pause (s : SchedState) : SchedState :=
  { s with playing := false, pending := false }

/-- `play()`: a no-op when already playing, else enable rendering and mark
dirty. -/
def play (s : SchedState) : SchedState :=
  if s.playing then s else markDirty { s with playing := true }

/-- Scheduler events that can occur while paused (no `play()`): synchronous
dirty-marking state mutations, and display-refresh callbacks. -/
inductive SchedEv
  | dirty
  | frame
  deriving DecidableEq

/-- Run a sequence of scheduler events. -/
def schedRun (s : SchedState) : List SchedEv → SchedState
  | [] => s
  | SchedEv.dirty :: rest => schedRun (markDirty s) rest
  | SchedEv.frame :: rest => schedRun (fireFrame s) rest

/-! ## Per-point visibility alpha of the frame builder -/

noncomputable section

/-- The visibility alpha of one data point in `Scatterplot.#render`
(`src/Scatterplot.ts`): `0` when the point's category is hidden by the
category filter, `0` when the point is strictly behind the camera
(`z > cameraZ`), else full opacity `255`. -/
def pointAlpha (catVisible : Bool) (cameraZ z : ℝ) : ℝ :=
  if catVisible then (if cameraZ < z then 0 else 255) else 0

/-- Modelled from the spec: the lasso-aware frame builder is not under `src/`
(only the `Lasso` class and its `pointsInPolygon` are); per §4.5 step 5 the
base alpha is "additionally dimmed to 10% of its value if a lasso selection is
active and the point is not in the selected set". -/
def lassoPointAlpha (catVisible : Bool) (cameraZ z : ℝ)
    (lassoActive selected : Bool) : ℝ :=
  if lassoActive && !selected then pointAlpha catVisible cameraZ z * (10 / 100)
  else pointAlpha catVisible cameraZ z

/-- The per-point alpha exactly as claim C7 words it, with the camera cut at
depth *at or beyond* `cameraZ` (`z ≥ cameraZ`). -/
def claimC7Alpha (catVisible : Bool) (cameraZ z : ℝ)
    (lassoActive selected : Bool) : ℝ :=
  if !catVisible then 0
  else if cameraZ ≤ z then 0
  else if lassoActive && !selected then 255 * (10 / 100)
  else 255

/-- The amended per-point alpha: as claim C7, but a point is suppressed only
when *strictly* behind the camera (`z > cameraZ`); at exactly `z = cameraZ`
it keeps full opacity. -/
def strictC7Alpha (catVisible : Bool) (cameraZ z : ℝ)
    (lassoActive selected : Bool) : ℝ :=
  if !catVisible then 0
  else if cameraZ < z then 0
  else if lassoActive && !selected then 255 * (10 / 100)
  else 255

end

/-! ### Dot-product and normalization facts -/

variable {n : ℕ}

theorem dot_comm (u v : Vec n) : dot u v = dot v u := by
  unfold dot; exact Finset.sum_congr rfl fun i _ => mul_comm _ _

theorem dot_self_nonneg (v : Vec n) : 0 ≤ dot v v :=
  Finset.sum_nonneg fun _ _ => mul_self_nonneg _

theorem dot_self_pos {v : Vec n} (hv : v ≠ 0) : 0 < dot v v := by
  rcases lt_or_eq_of_le (dot_self_nonneg v) with h | h
  · exact h
  · exfalso
    apply hv
    funext i
    have h0 : ∀ i ∈ Finset.univ, v i * v i = 0 :=
      (Finset.sum_eq_zero_iff_of_nonneg fun i _ => mul_self_nonneg (v i)).1 h.symm
    exact mul_self_eq_zero.1 (h0 i (Finset.mem_univ i))

theorem dot_sub_mul_right (u w x : Vec n) (c : ℝ) :
    dot u (fun t => w t - c * x t) = dot u w - c * dot u x := by
  unfold dot
  rw [Finset.mul_sum, ← Finset.sum_sub_distrib]
  exact Finset.sum_congr rfl fun i _ => by
    show u i * (w i - c * x i) = u i * w i - c * (u i * x i); ring

theorem dot_div_right (u v : Vec n) (c : ℝ) :
    dot u (fun t => v t / c) = dot u v / c := by
  unfold dot
  rw [Finset.sum_div]
  exact Finset.sum_congr rfl fun i _ => by
    show u i * (v i / c) = u i * v i / c; ring

theorem norm2_pos {v : Vec n} (hv : v ≠ 0) : 0 < norm2 v :=
  Real.sqrt_pos.2 (dot_self_pos hv)

theorem norm2_mul_self (v : Vec n) : norm2 v * norm2 v = dot v v :=
  Real.mul_self_sqrt (dot_self_nonneg v)

theorem normalizeVec_of_ne_zero {v : Vec n} (hv : v ≠ 0) :
    normalizeVec v = fun j => v j / norm2 v := by
  unfold normalizeVec
  rw [if_neg (not_le.2 (norm2_pos hv))]

theorem dot_normalizeVec_right (u : Vec n) {v : Vec n} (hv : v ≠ 0) :
    dot u (normalizeVec v) = dot u v / norm2 v := by
  rw [normalizeVec_of_ne_zero hv, dot_div_right]

theorem dot_normalizeVec_self {v : Vec n} (hv : v ≠ 0) :
    dot (normalizeVec v) (normalizeVec v) = 1 := by
  rw [normalizeVec_of_ne_zero hv]
  have h := norm2_mul_self v
  have hpos := norm2_pos hv
  unfold dot
  have : ∀ i ∈ Finset.univ, v i / norm2 v * (v i / norm2 v)
      = v i * v i / (norm2 v * norm2 v) := fun i _ => by ring
  rw [Finset.sum_congr rfl this, ← Finset.sum_div, h]
  exact div_self (ne_of_gt (dot_self_pos hv))

theorem normalizeVec_of_unit {v : Vec n} (h : dot v v = 1) : normalizeVec v = v := by
  have h2 : norm2 v = 1 := by unfold norm2; rw [h, Real.sqrt_one]
  unfold normalizeVec
  rw [if_neg (by rw [h2]; norm_num)]
  funext j
  rw [h2, div_one]

/-! ### `projectOut` facts -/

theorem projectOut_nil (m : Mat n) (v : Vec n) : projectOut m [] v = v := rfl

theorem projectOut_cons (m : Mat n) (j : Fin n) (js : List (Fin n)) (v : Vec n) :
    projectOut m (j :: js) v =
      projectOut m js
        (if 0 < dot (m j) (m j) then
          fun t => v t - dot (m j) v / dot (m j) (m j) * m j t
        else v) := by
  unfold projectOut
  simp only [List.foldl_cons]

theorem projectOut_of_orthogonal (m : Mat n) :
    ∀ (js : List (Fin n)) (v : Vec n), (∀ j ∈ js, dot (m j) v = 0) →
      projectOut m js v = v := by
  intro js
  induction js with
  | nil => intro v _; rfl
  | cons j rest ih =>
      intro v hv
      rw [projectOut_cons]
      by_cases h : 0 < dot (m j) (m j)
      · rw [if_pos h]
        have harg : (fun t => v t - dot (m j) v / dot (m j) (m j) * m j t) = v := by
          funext t
          rw [hv j (List.mem_cons_self j rest), zero_div, zero_mul, sub_zero]
        rw [harg]
        exact ih v fun l hl => hv l (List.mem_cons_of_mem _ hl)
      · rw [if_neg h]
        exact ih v fun l hl => hv l (List.mem_cons_of_mem _ hl)

theorem dot_projectOut_of_orth (m : Mat n) (a : Fin n) :
    ∀ (js : List (Fin n)) (v : Vec n), (∀ j ∈ js, dot (m a) (m j) = 0) →
      dot (m a) (projectOut m js v) = dot (m a) v := by
  intro js
  induction js with
  | nil => intro v _; rfl
  | cons j rest ih =>
      intro v ha
      rw [projectOut_cons]
      by_cases h : 0 < dot (m j) (m j)
      · rw [if_pos h, ih _ fun l hl => ha l (List.mem_cons_of_mem _ hl),
          dot_sub_mul_right, ha j (List.mem_cons_self j rest), mul_zero, sub_zero]
      · rw [if_neg h, ih _ fun l hl => ha l (List.mem_cons_of_mem _ hl)]

theorem dot_projectOut_self (m : Mat n) :
    ∀ (js : List (Fin n)) (v : Vec n), js.Nodup →
      (∀ j ∈ js, dot (m j) (m j) = 1) →
      (∀ j ∈ js, ∀ l ∈ js, j ≠ l → dot (m j) (m l) = 0) →
      ∀ j ∈ js, dot (m j) (projectOut m js v) = 0 := by
  intro js
  induction js with
  | nil => intro v _ _ _ j hj; exact absurd hj (List.not_mem_nil j)
  | cons a rest ih =>
      intro v hnd hunit horth j hj
      have hane : a ∉ rest := (List.nodup_cons.1 hnd).1
      have hda : dot (m a) (m a) = 1 := hunit a (List.mem_cons_self a rest)
      rw [projectOut_cons, if_pos (by rw [hda]; norm_num)]
      set v' : Vec n := fun t => v t - dot (m a) v / dot (m a) (m a) * m a t with hv'
      rcases List.mem_cons.1 hj with rfl | hjr
      · have horth' : ∀ l ∈ rest, dot (m j) (m l) = 0 := fun l hl =>
          horth j (List.mem_cons_self j rest) l (List.mem_cons_of_mem _ hl)
            (by rintro rfl; exact hane hl)
        rw [dot_projectOut_of_orth m j rest v' horth', hv']
        rw [dot_sub_mul_right, hda, div_one, mul_one, sub_self]
      · exact ih v' (List.nodup_cons.1 hnd).2
          (fun l hl => hunit l (List.mem_cons_of_mem _ hl))
          (fun l hl l' hl' => horth l (List.mem_cons_of_mem _ hl) l'
            (List.mem_cons_of_mem _ hl')) j hjr

theorem projectOut_eq_sub_span (m : Mat n) :
    ∀ (js : List (Fin n)) (v : Vec n),
      ∃ w ∈ Submodule.span ℝ (m '' {r | r ∈ js}), projectOut m js v = v - w := by
  intro js
  induction js with
  | nil =>
      intro v
      exact ⟨0, Submodule.zero_mem _, by rw [projectOut_nil, sub_zero]⟩
  | cons j rest ih =>
      intro v
      have hmono : Submodule.span ℝ (m '' {r | r ∈ rest}) ≤
          Submodule.span ℝ (m '' {r | r ∈ j :: rest}) :=
        Submodule.span_mono (Set.image_subset _ fun r hr => List.mem_cons_of_mem _ hr)
      rw [projectOut_cons]
      by_cases h : 0 < dot (m j) (m j)
      · rw [if_pos h]
        obtain ⟨w, hw, heq⟩ := ih (fun t => v t - dot (m j) v / dot (m j) (m j) * m j t)
        refine ⟨(dot (m j) v / dot (m j) (m j)) • m j + w, ?_, ?_⟩
        · exact Submodule.add_mem _
            (Submodule.smul_mem _ _ (Submodule.subset_span
              ⟨j, List.mem_cons_self j rest, rfl⟩)) (hmono hw)
        · rw [heq]
          funext t
          simp only [Pi.sub_apply, Pi.add_apply, Pi.smul_apply, smul_eq_mul]
          ring
      · rw [if_neg h]
        obtain ⟨w, hw, heq⟩ := ih v
        exact ⟨w, hmono hw, heq⟩

/-! ### The Gram-Schmidt row loop -/

theorem gsLoop_nil (m : Mat n) (processed : List (Fin n)) :
    gsLoop m processed [] = m := rfl

theorem gsLoop_cons (m : Mat n) (processed : List (Fin n)) (t : Fin n)
    (rest : List (Fin n)) :
    gsLoop m processed (t :: rest) =
      gsLoop (Function.update m t (normalizeVec (projectOut m processed (m t))))
        (processed ++ [t]) rest := rfl

theorem gsLoop_eq_of_not_mem (t : Fin n) :
    ∀ (todo processed : List (Fin n)) (m : Mat n), t ∉ todo →
      gsLoop m processed todo t = m t := by
  intro todo
  induction todo with
  | nil => intro processed m _; rfl
  | cons a rest ih =>
      intro processed m ht
      have hta : t ≠ a := fun h => ht (by rw [h]; exact List.mem_cons_self a rest)
      rw [gsLoop_cons, ih _ _ (fun h => ht (List.mem_cons_of_mem _ h)),
        Function.update_noteq hta]

/-- The inductive heart of the orthonormality invariant: processing the rows
in `todo` after the already-orthonormal rows in `processed` yields unit,
pairwise-orthogonal rows on `processed ++ todo`, as long as the original
rows are linearly independent. -/
theorem gsLoop_orthonormal (M₀ : Mat n) (hInd : LinearIndependent ℝ M₀) :
    ∀ (todo processed : List (Fin n)) (m : Mat n),
      (processed ++ todo).Nodup →
      (∀ j ∈ processed, dot (m j) (m j) = 1) →
      (∀ j ∈ processed, ∀ l ∈ processed, j ≠ l → dot (m j) (m l) = 0) →
      (∀ j ∈ processed, m j ∈ Submodule.span ℝ (M₀ '' {r | r ∈ processed})) →
      (∀ t, t ∉ processed → m t = M₀ t) →
      (∀ j ∈ processed ++ todo,
          dot (gsLoop m processed todo j) (gsLoop m processed todo j) = 1) ∧
        ∀ j ∈ processed ++ todo, ∀ l ∈ processed ++ todo, j ≠ l →
          dot (gsLoop m processed todo j) (gsLoop m processed todo l) = 0 := by
  intro todo
  induction todo with
  | nil =>
      intro processed m hnd hunit horth _ _
      rw [gsLoop_nil]
      constructor
      · intro j hj; exact hunit j (by simpa using hj)
      · intro j hj l hl hjl; exact horth j (by simpa using hj) l (by simpa using hl) hjl
  | cons t rest ih =>
      intro processed m hnd hunit horth hspan huntouched
      have hndp : processed.Nodup := (List.nodup_append.1 hnd).1
      have hdisj : ∀ a ∈ processed, a ∉ t :: rest := by
        intro a ha hat
        exact (List.disjoint_left.1 (List.nodup_append.1 hnd).2.2) ha hat
      have htp : t ∉ processed := fun h => hdisj t h (List.mem_cons_self t rest)
      have hmt : m t = M₀ t := huntouched t htp
      -- the residual of row t against the processed rows
      set res : Vec n := projectOut m processed (m t) with hres
      have hres_orth : ∀ j ∈ processed, dot (m j) res = 0 :=
        dot_projectOut_self m processed (m t) hndp hunit horth
      obtain ⟨w, hw_mem, hres_eq⟩ := projectOut_eq_sub_span m processed (m t)
      have hw' : w ∈ Submodule.span ℝ (M₀ '' {r | r ∈ processed}) := by
        refine Submodule.span_le.2 ?_ hw_mem
        rintro x ⟨r, hr, rfl⟩
        exact hspan r hr
      have hres_ne : res ≠ 0 := by
        intro h0
        have h1 : M₀ t ∈ Submodule.span ℝ (M₀ '' {r | r ∈ processed}) := by
          have : m t = w := by
            have := hres_eq
            rw [← hres, h0] at this
            have := congrArg (fun f => f + w) this
            simpa using this.symm
          rw [← hmt, this]; exact hw'
        exact hInd.not_mem_span_image (s := {r | r ∈ processed}) htp h1
      set u : Vec n := normalizeVec res with hu
      have hu_unit : dot u u = 1 := dot_normalizeVec_self hres_ne
      have hu_orth : ∀ j ∈ processed, dot (m j) u = 0 := fun j hj => by
        rw [hu, dot_normalizeVec_right _ hres_ne, hres_orth j hj, zero_div]
      have hu_span : u ∈ Submodule.span ℝ (M₀ '' {r | r ∈ processed ++ [t]}) := by
        have hmono : Submodule.span ℝ (M₀ '' {r | r ∈ processed}) ≤
            Submodule.span ℝ (M₀ '' {r | r ∈ processed ++ [t]}) :=
          Submodule.span_mono (Set.image_subset _ fun r hr => by
            simp only [Set.mem_setOf_eq, List.mem_append] at hr ⊢; exact Or.inl hr)
        have hMt : M₀ t ∈ Submodule.span ℝ (M₀ '' {r | r ∈ processed ++ [t]}) :=
          Submodule.subset_span ⟨t, by simp, rfl⟩
        have hres_mem : res ∈ Submodule.span ℝ (M₀ '' {r | r ∈ processed ++ [t]}) := by
          have : res = M₀ t - w := by rw [← hmt, ← hres_eq, hres]
          rw [this]
          exact Submodule.sub_mem _ hMt (hmono hw')
        rw [hu, normalizeVec_of_ne_zero hres_ne]
        have : (fun j => res j / norm2 res) = (norm2 res)⁻¹ • res := by
          funext j; simp [div_eq_inv_mul, mul_comm]
        rw [this]
        exact Submodule.smul_mem _ _ hres_mem
      -- step the state
      set m' : Mat n := Function.update m t u with hm'
      have hm'_old : ∀ j ∈ processed, m' j = m j := fun j hj =>
        Function.update_noteq (fun h => htp (by rwa [h] at hj)) _ _
      have hm'_t : m' t = u := Function.update_same _ _ _
      have step := ih (processed ++ [t]) m'
        (by
          have : (processed ++ [t]) ++ rest = processed ++ t :: rest := by
            rw [List.append_assoc]; rfl
          rw [this]; exact hnd)
        (by
          intro j hj
          rcases List.mem_append.1 hj with hj | hj
          · rw [hm'_old j hj]; exact hunit j hj
          · have hjt : j = t := by simpa using hj
            rw [hjt, hm'_t]; exact hu_unit)
        (by
          intro j hj l hl hjl
          rcases List.mem_append.1 hj with hj | hj <;>
            rcases List.mem_append.1 hl with hl | hl
          · rw [hm'_old j hj, hm'_old l hl]; exact horth j hj l hl hjl
          · have hlt : l = t := by simpa using hl
            rw [hlt, hm'_old j hj, hm'_t]; exact hu_orth j hj
          · have hjt : j = t := by simpa using hj
            rw [hjt, hm'_old l hl, hm'_t, dot_comm]; exact hu_orth l hl
          · have hjt : j = t := by simpa using hj
            have hlt : l = t := by simpa using hl
            exact absurd (hjt.trans hlt.symm) hjl)
        (by
          intro j hj
          rcases List.mem_append.1 hj with hj | hj
          · rw [hm'_old j hj]
            refine Submodule.span_mono (Set.image_subset _ fun r hr => ?_) (hspan j hj)
            simp only [Set.mem_setOf_eq, List.mem_append] at hr ⊢
            exact Or.inl hr
          · have hjt : j = t := by simpa using hj
            rw [hjt, hm'_t]; exact hu_span)
        (by
          intro s hs
          have hst : s ≠ t := fun h => hs (h ▸ by simp)
          have hsp : s ∉ processed := fun h => hs (by simp [h])
          rw [hm', Function.update_noteq hst]
          exact huntouched s hsp)
      rw [gsLoop_cons]
      have hmem : ∀ a : Fin n, a ∈ (processed ++ [t]) ++ rest ↔ a ∈ processed ++ t :: rest := by
        intro a; rw [List.append_assoc]; rfl
      constructor
      · intro j hj
        exact step.1 j ((hmem j).2 hj)
      · intro j hj l hl hjl
        exact step.2 j ((hmem j).2 hj) l ((hmem l).2 hl) hjl

theorem gsLoop_head (m : Mat n) (t : Fin n) (rest : List (Fin n)) (ht : t ∉ rest) :
    gsLoop m [] (t :: rest) t = normalizeVec (m t) := by
  rw [gsLoop_cons, gsLoop_eq_of_not_mem t rest _ _ ht, Function.update_same,
    projectOut_nil]

/-- The priority row of `orthogonalize` comes out as the normalization of the
corresponding input row: it is normalized first, untouched afterwards, and
swapped back into place. -/
theorem orthogonalize_priority_row (M : Mat n) (k : Fin n) :
    orthogonalize M k k = normalizeVec (M k) := by
  rcases n with _ | m
  · exact k.elim0
  · set z : Fin (m + 1) := ⟨0, lt_of_le_of_lt (Nat.zero_le _) k.isLt⟩ with hzdef
    have hz0 : z = 0 := by
      apply Fin.ext
      simp [hzdef]
    have hswapk : Equiv.swap z k k = z := Equiv.swap_apply_right z k
    have hfr : List.finRange (m + 1) = z :: (List.finRange m).map Fin.succ := by
      rw [List.finRange_succ_eq_map, hz0]
    have hznot : z ∉ (List.finRange m).map Fin.succ := by
      rw [hz0]
      intro hmem
      obtain ⟨a, _, ha⟩ := List.mem_map.1 hmem
      exact Fin.succ_ne_zero a ha
    show rowSwap (gsLoop (rowSwap M z k) [] (List.finRange (m + 1))) z k k = _
    unfold rowSwap
    rw [hswapk, hfr, gsLoop_head _ _ _ hznot]
    show normalizeVec (M (Equiv.swap z k z)) = _
    rw [Equiv.swap_apply_left]

/-- `gsLoop` is equivariant under a permutation of the rows: running the loop
on the row-permuted matrix is the same as running it on the original matrix
with all indices permuted. -/
theorem gsLoop_equivariant (σ : Equiv.Perm (Fin n)) :
    ∀ (todo processed : List (Fin n)) (M : Mat n),
      gsLoop (fun p => M (σ p)) processed todo =
        fun p => gsLoop M (processed.map σ) (todo.map σ) (σ p) := by
  intro todo
  induction todo with
  | nil => intro processed M; rfl
  | cons t rest ih =>
      intro processed M
      rw [List.map_cons, gsLoop_cons, gsLoop_cons]
      have hproj : ∀ v : Vec n, projectOut (fun p => M (σ p)) processed v =
          projectOut M (processed.map σ) v := by
        intro v
        induction processed generalizing v with
        | nil => rfl
        | cons a as iha =>
            rw [List.map_cons, projectOut_cons, projectOut_cons]
            exact iha _
      have hupd : Function.update (fun p => M (σ p)) t
          (normalizeVec (projectOut (fun p => M (σ p)) processed (M (σ t)))) =
          fun p => Function.update M (σ t)
            (normalizeVec (projectOut M (processed.map σ) (M (σ t)))) (σ p) := by
        funext p
        rw [hproj]
        by_cases hp : p = t
        · subst hp
          rw [Function.update_same, Function.update_same]
        · rw [Function.update_noteq hp,
            Function.update_noteq (fun h => hp (σ.injective h))]
      rw [hupd, ih]
      have : (processed ++ [t]).map σ = processed.map σ ++ [σ t] := by
        rw [List.map_append, List.map_singleton]
      rw [this]

/-- `orthogonalize` equals ordered modified Gram-Schmidt along the order the
swap induces: `k` first, then original rows `1, …, k-1, 0, k+1, …, n-1`. -/
theorem orthogonalize_eq_mgsOrdered (M : Mat n) (k : Fin n) :
    orthogonalize M k = mgsOrdered M (codeOrder k) := by
  set z : Fin n := ⟨0, lt_of_le_of_lt (Nat.zero_le _) k.isLt⟩ with hzdef
  show rowSwap (gsLoop (rowSwap M z k) [] (List.finRange n)) z k = _
  have h1 : rowSwap M z k = fun p => M (Equiv.swap z k p) := rfl
  rw [h1, gsLoop_equivariant (Equiv.swap z k) (List.finRange n) [] M]
  funext p
  show gsLoop M [] ((List.finRange n).map (Equiv.swap z k))
      (Equiv.swap z k (Equiv.swap z k p)) = _
  rw [Equiv.swap_apply_self]
  rfl

/-- Orthonormal matrices are fixed points of the Gram-Schmidt loop. -/
theorem gsLoop_fix (M : Mat n) (h : OrthonormalRows M) :
    ∀ (todo processed : List (Fin n)), (processed ++ todo).Nodup →
      gsLoop M processed todo = M := by
  intro todo
  induction todo with
  | nil => intro processed _; rfl
  | cons t rest ih =>
      intro processed hnd
      have htp : t ∉ processed := by
        intro ht
        exact (List.disjoint_left.1 (List.nodup_append.1 hnd).2.2) ht
          (List.mem_cons_self t rest)
      have hproj : projectOut M processed (M t) = M t := by
        refine projectOut_of_orthogonal M processed (M t) fun j hj => ?_
        rw [h j t, if_neg (fun hjt : j = t => htp (by rwa [hjt] at hj))]
      have hunit : dot (M t) (M t) = 1 := by
        have := h t t
        rwa [if_pos rfl] at this
      rw [gsLoop_cons, hproj, normalizeVec_of_unit hunit, Function.update_eq_self]
      refine ih (processed ++ [t]) ?_
      have heq : (processed ++ [t]) ++ rest = processed ++ t :: rest := by
        rw [List.append_assoc]; rfl
      rw [heq]
      exact hnd

/-- Orthonormal matrices are fixed points of `orthogonalize`, whatever the
priority row (spec §8: `orthogonalize(identity(n))` is the identity). -/
theorem orthogonalize_fix {M : Mat n} (h : OrthonormalRows M) (k : Fin n) :
    orthogonalize M k = M := by
  set z : Fin n := ⟨0, lt_of_le_of_lt (Nat.zero_le _) k.isLt⟩
  show rowSwap (gsLoop (rowSwap M z k) [] (List.finRange n)) z k = M
  have hsw : OrthonormalRows (rowSwap M z k) := by
    intro a b
    unfold rowSwap
    rw [h (Equiv.swap z k a) (Equiv.swap z k b)]
    by_cases hab : a = b
    · rw [if_pos hab, if_pos (by rw [hab])]
    · rw [if_neg hab, if_neg (fun hc => hab (Equiv.injective _ hc))]
  rw [gsLoop_fix _ hsw (List.finRange n) [] (by simpa using List.nodup_finRange n)]
  funext p
  unfold rowSwap
  rw [Equiv.swap_apply_self]

/-- How `setAxis` transforms its priority row: the row is exactly the
normalization of the input vector, except that its column-2 entry is negated
when the sign-stability correction fires. -/
theorem setAxis_row (M : Mat n) (i : Fin n) (v : Vec n) :
    (¬ setAxisFlips M i v → setAxis M i v i = normalizeVec v) ∧
      (∀ t : Fin n, (t : ℕ) ≠ 2 → setAxis M i v i t = normalizeVec v t) ∧
      (setAxisFlips M i v → ∀ t : Fin n, (t : ℕ) = 2 →
        setAxis M i v i t = -(normalizeVec v t)) := by
  have hrow : orthogonalize (Function.update M i v) i i = normalizeVec v := by
    rw [orthogonalize_priority_row, Function.update_same]
  unfold setAxis setAxisFlips
  by_cases h3 : 3 ≤ n
  · simp only [dif_pos h3]
    by_cases hneg : dot (column M ⟨2, by omega⟩)
        (column (orthogonalize (Function.update M i v) i) ⟨2, by omega⟩) < 0
    · simp only [if_pos hneg]
      refine ⟨fun hc => absurd hneg hc, ?_, ?_⟩
      · intro t ht
        have htne : t ≠ (⟨2, by omega⟩ : Fin n) := fun hte => ht (by rw [hte])
        unfold negCol2
        rw [if_neg htne, hrow]
      · intro _ t ht
        have hte : t = (⟨2, by omega⟩ : Fin n) := Fin.ext ht
        unfold negCol2
        rw [if_pos hte, hrow]
    · simp only [if_neg hneg]
      exact ⟨fun _ => hrow, fun t _ => by rw [hrow], fun hc => absurd hc hneg⟩
  · simp only [dif_neg h3]
    exact ⟨fun _ => hrow, fun t _ => by rw [hrow], False.elim⟩

/-! ### Orthonormality of the projection mutations -/

theorem orthogonalize_orthonormal {M : Mat n} (hInd : LinearIndependent ℝ M)
    (k : Fin n) : OrthonormalRows (orthogonalize M k) := by
  set z : Fin n := ⟨0, lt_of_le_of_lt (Nat.zero_le _) k.isLt⟩ with hz
  have hInd' : LinearIndependent ℝ (rowSwap M z k) :=
    hInd.comp (Equiv.swap z k) (Equiv.injective _)
  have main := gsLoop_orthonormal (rowSwap M z k) hInd' (List.finRange n) []
    (rowSwap M z k) (by simpa using List.nodup_finRange n)
    (by simp) (by simp) (by simp) (fun t _ => rfl)
  intro i j
  show dot (rowSwap (gsLoop (rowSwap M z k) [] (List.finRange n)) z k i)
    (rowSwap (gsLoop (rowSwap M z k) [] (List.finRange n)) z k j) = _
  by_cases hij : i = j
  · subst hij
    rw [if_pos rfl]
    exact main.1 (Equiv.swap z k i) (by simp [List.mem_finRange])
  · rw [if_neg hij]
    exact main.2 (Equiv.swap z k i) (by simp [List.mem_finRange])
      (Equiv.swap z k j) (by simp [List.mem_finRange])
      (fun h => hij (Equiv.injective _ h))

theorem tol_of_orthonormal {M : Mat n} (h : OrthonormalRows M) : TolOrthonormal M := by
  constructor
  · intro i j hij
    rw [h i j, if_neg hij, abs_zero]
    norm_num
  · intro i
    unfold norm2
    rw [h i i, if_pos rfl, Real.sqrt_one, sub_self, abs_zero]
    norm_num

theorem dot_negCol2 (M1 : Mat n) (idx2 : Fin n) (a b : Fin n) :
    dot (negCol2 M1 idx2 a) (negCol2 M1 idx2 b) = dot (M1 a) (M1 b) := by
  unfold dot negCol2
  refine Finset.sum_congr rfl fun t _ => ?_
  by_cases h : t = idx2 <;> simp [h]

theorem column_negCol2 (M1 : Mat n) (idx2 : Fin n) :
    column (negCol2 M1 idx2) idx2 = fun r => -(column M1 idx2 r) := by
  funext r
  unfold column negCol2
  rw [if_pos rfl]

/-- The column-2 sign-stability correction preserves exact orthonormality. -/
theorem setAxis_orthonormal {M : Mat n} {i : Fin n} {v : Vec n}
    (hInd : LinearIndependent ℝ (Function.update M i v)) :
    OrthonormalRows (setAxis M i v) := by
  have h1 : OrthonormalRows (orthogonalize (Function.update M i v) i) :=
    orthogonalize_orthonormal hInd i
  unfold setAxis
  by_cases h3 : 3 ≤ n
  · rw [dif_pos h3]
    by_cases hneg :
        dot (column M ⟨2, by omega⟩)
          (column (orthogonalize (Function.update M i v) i) ⟨2, by omega⟩) < 0
    · rw [if_pos hneg]
      intro a b
      rw [dot_negCol2]
      exact h1 a b
    · rw [if_neg hneg]; exact h1
  · rw [dif_neg h3]; exact h1

theorem flipAxis_apply_self (M : Mat n) (i : Fin n) :
    flipAxis M i i = fun j => -(M i j) := Function.update_same _ _ _

theorem flipAxis_apply_other (M : Mat n) {i j : Fin n} (h : j ≠ i) :
    flipAxis M i j = M j := Function.update_noteq h _ _

theorem dot_neg_left (u v : Vec n) : dot (fun t => -(u t)) v = -dot u v := by
  unfold dot
  rw [← Finset.sum_neg_distrib]
  exact Finset.sum_congr rfl fun t _ => by ring

theorem dot_neg_right (u v : Vec n) : dot u (fun t => -(v t)) = -dot u v := by
  rw [dot_comm, dot_neg_left, dot_comm]

theorem dot_flipAxis (M : Mat n) (i a b : Fin n) :
    dot (flipAxis M i a) (flipAxis M i b) =
      (if a = i then -1 else 1) * (if b = i then -1 else 1) * dot (M a) (M b) := by
  by_cases ha : a = i <;> by_cases hb : b = i
  · subst ha; subst hb
    rw [flipAxis_apply_self, dot_neg_left, dot_neg_right]
    ring_nf
    simp
  · subst ha
    rw [flipAxis_apply_self, flipAxis_apply_other M hb, dot_neg_left]
    simp [hb]
  · subst hb
    rw [flipAxis_apply_self, flipAxis_apply_other M ha, dot_neg_right]
    simp [ha]
  · rw [flipAxis_apply_other M ha, flipAxis_apply_other M hb]
    simp [ha, hb]

theorem flipAxis_tol {M : Mat n} (i : Fin n) (h : TolOrthonormal M) :
    TolOrthonormal (flipAxis M i) := by
  constructor
  · intro a b hab
    rw [dot_flipAxis]
    have habs : |(if a = i then (-1 : ℝ) else 1) * (if b = i then (-1 : ℝ) else 1) *
        dot (M a) (M b)| = |dot (M a) (M b)| := by
      by_cases ha : a = i <;> by_cases hb : b = i <;> simp [ha, hb, abs_mul]
    rw [habs]
    exact h.1 a b hab
  · intro a
    have : dot (flipAxis M i a) (flipAxis M i a) = dot (M a) (M a) := by
      rw [dot_flipAxis]
      by_cases ha : a = i <;> simp [ha]
    unfold norm2
    rw [this]
    exact h.2 a

/-! ### Lasso hit-testing lemmas -/

theorem foldl_min_le_init : ∀ (l : List ℚ) (init : ℚ), l.foldl min init ≤ init := by
  intro l
  induction l with
  | nil => intro init; exact le_refl _
  | cons a as ih =>
      intro init
      exact le_trans (ih (min init a)) (min_le_left _ _)

theorem foldl_min_le_mem : ∀ (l : List ℚ) (init x : ℚ), x ∈ l → l.foldl min init ≤ x := by
  intro l
  induction l with
  | nil => intro _ x hx; exact absurd hx (List.not_mem_nil x)
  | cons a as ih =>
      intro init x hx
      rcases List.mem_cons.1 hx with rfl | hx'
      · exact le_trans (foldl_min_le_init as (min init x)) (min_le_right _ _)
      · exact ih (min init a) x hx'

theorem init_le_foldl_max : ∀ (l : List ℚ) (init : ℚ), init ≤ l.foldl max init := by
  intro l
  induction l with
  | nil => intro init; exact le_refl _
  | cons a as ih =>
      intro init
      exact le_trans (le_max_left _ _) (ih (max init a))

theorem mem_le_foldl_max : ∀ (l : List ℚ) (init x : ℚ), x ∈ l → x ≤ l.foldl max init := by
  intro l
  induction l with
  | nil => intro _ x hx; exact absurd hx (List.not_mem_nil x)
  | cons a as ih =>
      intro init x hx
      rcases List.mem_cons.1 hx with rfl | hx'
      · exact le_trans (le_max_right _ _) (init_le_foldl_max as (max init x))
      · exact ih (max init a) x hx'

theorem listMin_le {l : List ℚ} {x : ℚ} (hx : x ∈ l) : listMin l ≤ x :=
  foldl_min_le_mem l _ x hx

theorem le_listMax {l : List ℚ} {x : ℚ} (hx : x ∈ l) : x ≤ listMax l :=
  mem_le_foldl_max l _ x hx

/-- When the horizontal ray at height `y` actually crosses the edge from `q`
to `p`, the crossing abscissa lies between the endpoints' abscissas. -/
theorem intercept_mem {y : ℚ} {p q : ℚ × ℚ}
    (h : (decide (y < p.2) != decide (y < q.2)) = true) :
    min p.1 q.1 ≤ (q.1 - p.1) * (y - p.2) / (q.2 - p.2) + p.1 ∧
      (q.1 - p.1) * (y - p.2) / (q.2 - p.2) + p.1 ≤ max p.1 q.1 := by
  have hd : q.2 - p.2 ≠ 0 ∧ 0 ≤ (y - p.2) / (q.2 - p.2) ∧ (y - p.2) / (q.2 - p.2) ≤ 1 := by
    by_cases hp2 : y < p.2
    · have hq2 : ¬ y < q.2 := by
        intro hq2
        rw [decide_eq_true hp2, decide_eq_true hq2] at h
        exact absurd h (by norm_num)
      push_neg at hq2
      have hdneg : q.2 - p.2 < 0 := by linarith
      refine ⟨ne_of_lt hdneg, ?_, ?_⟩
      · exact le_of_lt (div_pos_of_neg_of_neg (by linarith) hdneg)
      · rw [div_le_one_of_neg hdneg]
        linarith
    · have hq2 : y < q.2 := by
        by_contra hq2
        rw [decide_eq_false hp2, decide_eq_false hq2] at h
        exact absurd h (by norm_num)
      push_neg at hp2
      have hdpos : 0 < q.2 - p.2 := by linarith
      refine ⟨ne_of_gt hdpos, ?_, ?_⟩
      · exact div_nonneg (by linarith) (le_of_lt hdpos)
      · rw [div_le_one hdpos]
        linarith
  obtain ⟨hne, ht0, ht1⟩ := hd
  rw [mul_div_assoc]
  set t := (y - p.2) / (q.2 - p.2) with htdef
  constructor
  · rcases le_total p.1 q.1 with hpq | hpq
    · rw [min_eq_left hpq]
      nlinarith
    · rw [min_eq_right hpq]
      nlinarith
  · rcases le_total p.1 q.1 with hpq | hpq
    · rw [max_eq_right hpq]
      nlinarith
    · rw [max_eq_left hpq]
      nlinarith

theorem xor_if_toggle (ins b : Bool) : (if b = true then !ins else ins) = ins.xor b := by
  cases ins <;> cases b <;> rfl

theorem rayCastAux_no_cross (x y : ℚ) (b : Bool) :
    ∀ (l : List (ℚ × ℚ)) (q : ℚ × ℚ) (ins : Bool),
      decide (y < q.2) = b → (∀ p ∈ l, decide (y < p.2) = b) →
      rayCastAux x y q l ins = ins := by
  intro l
  induction l with
  | nil => intro q ins _ _; rfl
  | cons p rest ih =>
      intro q ins hq hl
      show rayCastAux x y p rest (if edgeCross x y p q then !ins else ins) = ins
      have hec : edgeCross x y p q = false := by
        unfold edgeCross
        rw [hl p (List.mem_cons_self p rest), hq, bne_self_eq_false]
        rfl
      rw [hec]
      show rayCastAux x y p rest ins = ins
      exact ih p ins (hl p (List.mem_cons_self p rest))
        (fun a ha => hl a (List.mem_cons_of_mem _ ha))

theorem rayCastAux_all_false (x y : ℚ) (P : List (ℚ × ℚ))
    (hEC : ∀ a b, a ∈ P → b ∈ P → edgeCross x y a b = false) :
    ∀ (l : List (ℚ × ℚ)) (q : ℚ × ℚ) (ins : Bool), q ∈ P → (∀ a ∈ l, a ∈ P) →
      rayCastAux x y q l ins = ins := by
  intro l
  induction l with
  | nil => intro q ins _ _; rfl
  | cons p rest ih =>
      intro q ins hq hl
      show rayCastAux x y p rest (if edgeCross x y p q then !ins else ins) = ins
      rw [hEC p q (hl p (List.mem_cons_self p rest)) hq]
      show rayCastAux x y p rest ins = ins
      exact ih p ins (hl p (List.mem_cons_self p rest))
        (fun a ha => hl a (List.mem_cons_of_mem _ ha))

theorem rayCastAux_telescope (x y : ℚ) (P : List (ℚ × ℚ))
    (hEC : ∀ a b, a ∈ P → b ∈ P →
      edgeCross x y a b = (decide (y < a.2) != decide (y < b.2))) :
    ∀ (l : List (ℚ × ℚ)) (q : ℚ × ℚ) (ins : Bool), q ∈ P → (∀ a ∈ l, a ∈ P) →
      rayCastAux x y q l ins =
        ins.xor (decide (y < q.2) != decide (y < (l.getLastD q).2)) := by
  intro l
  induction l with
  | nil =>
      intro q ins _ _
      show ins = ins.xor (decide (y < q.2) != decide (y < q.2))
      rw [bne_self_eq_false, Bool.xor_false]
  | cons p rest ih =>
      intro q ins hq hl
      show rayCastAux x y p rest (if edgeCross x y p q then !ins else ins) =
        ins.xor (decide (y < q.2) != decide (y < ((p :: rest).getLastD q).2))
      rw [hEC p q (hl p (List.mem_cons_self p rest)) hq, xor_if_toggle,
        ih p _ (hl p (List.mem_cons_self p rest))
          (fun a ha => hl a (List.mem_cons_of_mem _ ha)),
        List.getLastD_cons, Bool.xor_assoc]
      congr 1
      cases decide (y < p.2) <;> cases decide (y < q.2) <;>
        cases decide (y < (rest.getLastD p).2) <;> rfl

/-- A point outside the polygon's axis-aligned bounding box has even
crossing parity: the bounding-box pre-filter never changes the result. -/
theorem rayCast_false_outside (polygon : List (ℚ × ℚ)) (x y : ℚ)
    (hne : polygon ≠ [])
    (hout : x < listMin (polygon.map Prod.fst) ∨ listMax (polygon.map Prod.fst) < x ∨
      y < listMin (polygon.map Prod.snd) ∨ listMax (polygon.map Prod.snd) < y) :
    rayCast polygon x y = false := by
  obtain ⟨q, rest, rfl⟩ : ∃ q rest, polygon = q :: rest := by
    cases polygon with
    | nil => exact absurd rfl hne
    | cons q rest => exact ⟨q, rest, rfl⟩
  set P := q :: rest with hP
  have hmemP : ∀ a ∈ P, a ∈ P := fun a ha => ha
  have hlastP : P.getLastD q ∈ P := by
    have : ∀ (l : List (ℚ × ℚ)) (d : ℚ × ℚ), l.getLastD d ∈ d :: l := by
      intro l
      induction l with
      | nil => intro d; exact List.mem_cons_self d []
      | cons a as iha =>
          intro d
          rw [List.getLastD_cons]
          rcases List.mem_cons.1 (iha a) with h | h
          · rw [h]; simp
          · exact List.mem_cons_of_mem _ (List.mem_cons_of_mem _ h)
    rcases List.mem_cons.1 (this P q) with h | h
    · rw [h]; exact List.mem_cons_self q rest
    · exact h
  rcases hout with hx | hx | hy | hy
  · -- x left of the box: every crossing edge toggles, and the total cyclic
    -- alternation count is even
    have hEC : ∀ a b, a ∈ P → b ∈ P →
        edgeCross x y a b = (decide (y < a.2) != decide (y < b.2)) := by
      intro a b ha hb
      unfold edgeCross
      by_cases hab : (decide (y < a.2) != decide (y < b.2)) = true
      · rw [hab]
        have hbound := (intercept_mem (y := y) (p := a) (q := b) hab).1
        have hax : listMin (P.map Prod.fst) ≤ a.1 :=
          listMin_le (List.mem_map_of_mem Prod.fst ha)
        have hbx : listMin (P.map Prod.fst) ≤ b.1 :=
          listMin_le (List.mem_map_of_mem Prod.fst hb)
        have hxlt : x < (b.1 - a.1) * (y - a.2) / (b.2 - a.2) + a.1 := by
          have hminab : listMin (P.map Prod.fst) ≤ min a.1 b.1 := le_min hax hbx
          linarith
        rw [decide_eq_true hxlt]
        rfl
      · rw [Bool.not_eq_true] at hab
        rw [hab]
        rfl
    show rayCastAux x y (P.getLastD q) P false = false
    rw [rayCastAux_telescope x y P hEC P (P.getLastD q) false hlastP hmemP,
      Bool.false_xor]
    have hsame : P.getLastD (P.getLastD q) = P.getLastD q := by
      rw [hP, List.getLastD_cons, List.getLastD_cons]
    rw [hsame, bne_self_eq_false]
  · -- x right of the box: no edge test passes the abscissa comparison
    have hEC : ∀ a b, a ∈ P → b ∈ P → edgeCross x y a b = false := by
      intro a b ha hb
      unfold edgeCross
      by_cases hab : (decide (y < a.2) != decide (y < b.2)) = true
      · rw [hab]
        have hbound := (intercept_mem (y := y) (p := a) (q := b) hab).2
        have hax : a.1 ≤ listMax (P.map Prod.fst) :=
          le_listMax (List.mem_map_of_mem Prod.fst ha)
        have hbx : b.1 ≤ listMax (P.map Prod.fst) :=
          le_listMax (List.mem_map_of_mem Prod.fst hb)
        have hxge : ¬ x < (b.1 - a.1) * (y - a.2) / (b.2 - a.2) + a.1 := by
          have hmaxab : max a.1 b.1 ≤ listMax (P.map Prod.fst) := max_le hax hbx
          linarith
        rw [decide_eq_false hxge]
        rfl
      · rw [Bool.not_eq_true] at hab
        rw [hab]
        rfl
    exact rayCastAux_all_false x y P hEC P (P.getLastD q) false hlastP hmemP
  · -- y below the box: every vertex is strictly above the ray
    refine rayCastAux_no_cross x y true P (P.getLastD q) false ?_ ?_
    · exact decide_eq_true (lt_of_lt_of_le hy
        (listMin_le (List.mem_map_of_mem Prod.snd hlastP)))
    · intro p hp
      exact decide_eq_true (lt_of_lt_of_le hy
        (listMin_le (List.mem_map_of_mem Prod.snd hp)))
  · -- y above the box: every vertex is at or below the ray
    refine rayCastAux_no_cross x y false P (P.getLastD q) false ?_ ?_
    · exact decide_eq_false (not_lt.2 (le_of_lt (lt_of_le_of_lt
        (le_listMax (List.mem_map_of_mem Prod.snd hlastP)) hy)))
    · intro p hp
      exact decide_eq_false (not_lt.2 (le_of_lt (lt_of_le_of_lt
        (le_listMax (List.mem_map_of_mem Prod.snd hp)) hy)))

theorem pointsInPolygon_eq_parityInside (positions : List ℚ) (npoint : ℕ)
    (polygon : List (ℚ × ℚ)) (order : List ℕ) (h3 : 3 ≤ polygon.length) :
    pointsInPolygon positions npoint polygon order =
      parityInside positions npoint polygon order := by
  have hne : polygon ≠ [] := by
    intro hnil
    rw [hnil] at h3
    norm_num at h3
  unfold pointsInPolygon parityInside
  rw [if_neg (by omega)]
  dsimp only
  congr 1
  refine List.filter_congr fun si _ => ?_
  by_cases hout : positions.getD (2 * si) 0 < listMin (polygon.map Prod.fst) ∨
      listMax (polygon.map Prod.fst) < positions.getD (2 * si) 0 ∨
      positions.getD (2 * si + 1) 0 < listMin (polygon.map Prod.snd) ∨
      listMax (polygon.map Prod.snd) < positions.getD (2 * si + 1) 0
  · rw [if_pos hout,
      rayCast_false_outside polygon _ _ hne hout]
  · rw [if_neg hout]

theorem pointsInPolygon_take (positions : List ℚ) (npoint : ℕ)
    (polygon : List (ℚ × ℚ)) (order : List ℕ) :
    pointsInPolygon (positions.take (2 * npoint)) npoint polygon order =
      pointsInPolygon positions npoint polygon order := by
  unfold pointsInPolygon
  by_cases h3 : polygon.length < 3
  · rw [if_pos h3, if_pos h3]
  · rw [if_neg h3, if_neg h3]
    dsimp only
    congr 1
    refine List.filter_congr fun si hsi => ?_
    have hsi' : si < npoint := List.mem_range.1 hsi
    have hget : ∀ i, i < 2 * npoint →
        (positions.take (2 * npoint)).getD i 0 = positions.getD i 0 := by
      intro i hi
      rw [List.getD_eq_getD_get?, List.getD_eq_getD_get?, List.get?_take hi]
    rw [hget (2 * si) (by omega), hget (2 * si + 1) (by omega)]

/-! ## Supporting facts for concrete witnesses and counterexamples -/

/-- Re-orthogonalizing the identity with row 2 replaced by `-e₂` leaves the
matrix unchanged (row 2 is already unit and orthogonal to the others). -/
theorem orth_flip_eval : orthogonalize (Function.update (identityMat 3) 2 vFlip) 2
    = Function.update (identityMat 3) 2 vFlip := by
  set M' := Function.update (identityMat 3) 2 vFlip with hM'
  have h2 : M' 2 = vFlip := Function.update_same _ _ _
  have h1 : M' 1 = identityMat 3 1 := Function.update_noteq (by decide) _ _
  have h0 : M' 0 = identityMat 3 0 := Function.update_noteq (by decide) _ _
  have hvunit : dot vFlip vFlip = 1 := by norm_num [dot, vFlip, Fin.sum_univ_three]
  rw [orthogonalize_eq_mgsOrdered]
  unfold mgsOrdered
  rw [show codeOrder (2 : Fin 3) = [2, 1, 0] from by decide]
  have hs1 : normalizeVec (projectOut M' [] (M' 2)) = M' 2 := by
    rw [projectOut_nil, h2, normalizeVec_of_unit hvunit]
  rw [gsLoop_cons, hs1, Function.update_eq_self]
  show gsLoop M' [2] [1, 0] = M'
  have hs2 : normalizeVec (projectOut M' [2] (M' 1)) = M' 1 := by
    have hp : projectOut M' [2] (M' 1) = M' 1 := by
      refine projectOut_of_orthogonal _ _ _ fun j hj => ?_
      have hj2 : j = 2 := by simpa using hj
      rw [hj2, h2, h1]
      norm_num [dot, vFlip, identityMat, Fin.sum_univ_three]
    rw [hp, h1,
      normalizeVec_of_unit (by norm_num [dot, identityMat, Fin.sum_univ_three]), ← h1]
  rw [gsLoop_cons, hs2, Function.update_eq_self]
  show gsLoop M' [2, 1] [0] = M'
  have hs3 : normalizeVec (projectOut M' [2, 1] (M' 0)) = M' 0 := by
    have hp : projectOut M' [2, 1] (M' 0) = M' 0 := by
      refine projectOut_of_orthogonal _ _ _ fun j hj => ?_
      rcases List.mem_cons.1 hj with hj2 | hj1
      · rw [hj2, h2, h0]
        norm_num [dot, vFlip, identityMat, Fin.sum_univ_three]
      · have hj1' : j = 1 := by simpa using hj1
        rw [hj1', h1, h0]
        norm_num [dot, identityMat, Fin.sum_univ_three]
    rw [hp, h0,
      normalizeVec_of_unit (by norm_num [dot, identityMat, Fin.sum_univ_three]), ← h0]
  rw [gsLoop_cons, hs3, Function.update_eq_self]
  rfl

theorem mMix_linearIndependent : LinearIndependent ℝ mMix := by
  rw [Fintype.linearIndependent_iff]
  intro g hg
  have h0 := congrFun hg 0
  have h1 := congrFun hg 1
  have h2 := congrFun hg 2
  simp [mMix, Fin.sum_univ_three, Matrix.vecHead, Matrix.vecTail] at h0 h1 h2
  intro i
  fin_cases i <;> simp <;> linarith

/-- The code's processing order on `mMix` with priority 2 is `2, 1, 0`: row 0
ends up orthogonalized against rows 2 *and* 1, yielding `(0, 1, 0)`. -/
theorem orth_mMix : orthogonalize mMix 2 = Function.update mMix 0 ![0, 1, 0] := by
  rw [orthogonalize_eq_mgsOrdered]
  unfold mgsOrdered
  rw [show codeOrder (2 : Fin 3) = [2, 1, 0] from by decide]
  have hs1 : normalizeVec (projectOut mMix [] (mMix 2)) = mMix 2 := by
    rw [projectOut_nil,
      normalizeVec_of_unit (by norm_num [dot, mMix, Fin.sum_univ_three])]
  rw [gsLoop_cons, hs1, Function.update_eq_self]
  show gsLoop mMix [2] [1, 0] = _
  have hs2 : normalizeVec (projectOut mMix [2] (mMix 1)) = mMix 1 := by
    have hp : projectOut mMix [2] (mMix 1) = mMix 1 := by
      refine projectOut_of_orthogonal _ _ _ fun j hj => ?_
      have hj2 : j = 2 := by simpa using hj
      rw [hj2]
      norm_num [dot, mMix, Fin.sum_univ_three]
    rw [hp, normalizeVec_of_unit (by norm_num [dot, mMix, Fin.sum_univ_three])]
  rw [gsLoop_cons, hs2, Function.update_eq_self]
  show gsLoop mMix [2, 1] [0] = _
  have hs3 : normalizeVec (projectOut mMix [2, 1] (mMix 0)) = ![0, 1, 0] := by
    have h22 : (0 : ℝ) < dot (mMix 2) (mMix 2) := by
      norm_num [dot, mMix, Fin.sum_univ_three]
    have h20 : dot (mMix 2) (mMix 0) = 0 := by
      norm_num [dot, mMix, Fin.sum_univ_three]
    rw [projectOut_cons, if_pos h22]
    have harg1 : (fun t => mMix 0 t - dot (mMix 2) (mMix 0) / dot (mMix 2) (mMix 2) *
        mMix 2 t) = mMix 0 := by
      funext t
      rw [h20, zero_div, zero_mul, sub_zero]
    rw [harg1]
    have h11 : (0 : ℝ) < dot (mMix 1) (mMix 1) := by
      norm_num [dot, mMix, Fin.sum_univ_three]
    rw [projectOut_cons, if_pos h11, projectOut_nil]
    have harg2 : (fun t => mMix 0 t - dot (mMix 1) (mMix 0) / dot (mMix 1) (mMix 1) *
        mMix 1 t) = ![0, 1, 0] := by
      funext t
      have hd10 : dot (mMix 1) (mMix 0) = 1 := by
        norm_num [dot, mMix, Fin.sum_univ_three]
      have hd11 : dot (mMix 1) (mMix 1) = 1 := by
        norm_num [dot, mMix, Fin.sum_univ_three]
      rw [hd10, hd11]
      fin_cases t <;> norm_num [mMix]
    rw [harg2, normalizeVec_of_unit (by norm_num [dot, Fin.sum_univ_three])]
  rw [gsLoop_cons, hs3]
  rfl

/-- The spec's increasing-index order on `mMix` with priority 2 is `2, 0, 1`:
row 0 is only orthogonalized against row 2 (a no-op) and then normalized. -/
theorem spec_mMix_row0 : specMGS mMix 2 0 = fun j => mMix 0 j / norm2 (mMix 0) := by
  unfold specMGS mgsOrdered
  rw [show ((List.finRange 3).filter (fun j => j ≠ (2 : Fin 3))) = [0, 1] from by decide]
  have hs1 : normalizeVec (projectOut mMix [] (mMix 2)) = mMix 2 := by
    rw [projectOut_nil,
      normalizeVec_of_unit (by norm_num [dot, mMix, Fin.sum_univ_three])]
  rw [gsLoop_cons, hs1, Function.update_eq_self]
  show gsLoop mMix [2] [0, 1] 0 = _
  have hm0 : mMix 0 ≠ 0 := by
    intro hz
    have h := congrFun hz 0
    norm_num [mMix] at h
  have hs2 : normalizeVec (projectOut mMix [2] (mMix 0)) =
      fun j => mMix 0 j / norm2 (mMix 0) := by
    have hp : projectOut mMix [2] (mMix 0) = mMix 0 := by
      refine projectOut_of_orthogonal _ _ _ fun j hj => ?_
      have hj2 : j = 2 := by simpa using hj
      rw [hj2]
      norm_num [dot, mMix, Fin.sum_univ_three]
    rw [hp, normalizeVec_of_ne_zero hm0]
  rw [gsLoop_cons, hs2]
  rw [gsLoop_eq_of_not_mem 0 [1] _ _ (by decide), Function.update_same]

theorem identityMat_orthonormal (n : ℕ) : OrthonormalRows (identityMat n) := by
  intro a b
  unfold dot identityMat
  by_cases hab : a = b
  · subst hab
    rw [if_pos rfl]
    rw [Finset.sum_eq_single a]
    · simp
    · intro c _ hc; rw [if_neg (fun h : a = c => hc h.symm), zero_mul]
    · intro h; exact absurd (Finset.mem_univ a) h
  · rw [if_neg hab]
    refine Finset.sum_eq_zero fun c _ => ?_
    by_cases hca : a = c
    · subst hca
      rw [if_neg (fun h : b = a => hab h.symm), mul_zero]
    · rw [if_neg hca, zero_mul]

theorem identityMat_linearIndependent (n : ℕ) :
    LinearIndependent ℝ (identityMat n) := by
  rw [Fintype.linearIndependent_iff]
  intro g hg i
  have h := congrFun hg i
  simp only [Finset.sum_apply, Pi.smul_apply, identityMat, smul_eq_mul, mul_ite, mul_one,
    mul_zero, Pi.zero_apply] at h
  rwa [Finset.sum_ite_eq' Finset.univ i g, if_pos (Finset.mem_univ i)] at h

/-! ## Claim theorems -/

/-- C1: for every Projection with `ndim ≥ 1`, after each public mutation
(`setMatrix`, `setAxis`, `flipAxis`) whose inputs satisfy the stated
preconditions (matrix/vector inputs yielding linearly independent rows,
in-range axis index), the matrix returned by `getMatrix` is orthonormal:
every pair of distinct rows has dot product within `1e-10` of `0` and every
row has Euclidean norm within `1e-10` of `1`. -/
theorem c1_orthonormal_after_public_mutations :
    ∀ (n : ℕ), 1 ≤ n → ∀ (M : Mat n) (i : Fin n) (v : Vec n),
      (LinearIndependent ℝ M → TolOrthonormal (getMatrix (setMatrix M))) ∧
        (LinearIndependent ℝ (Function.update M i v) →
          TolOrthonormal (getMatrix (setAxis M i v))) ∧
        (TolOrthonormal M → TolOrthonormal (getMatrix (flipAxis M i))) := by
  intro n hn M i v
  refine ⟨?_, ?_, ?_⟩
  · intro hInd
    unfold setMatrix getMatrix
    rw [dif_pos (by omega : 0 < n)]
    exact tol_of_orthonormal (orthogonalize_orthonormal hInd _)
  · intro hInd
    exact tol_of_orthonormal (setAxis_orthonormal hInd)
  · exact flipAxis_tol i

/-- Witness for C1 at a concrete input: the 2-dimensional identity basis. -/
theorem c1_witness :
    TolOrthonormal (getMatrix (setMatrix (identityMat 2))) ∧
      TolOrthonormal (getMatrix (setAxis (identityMat 2) 0 (identityMat 2 0))) ∧
      TolOrthonormal (getMatrix (flipAxis (identityMat 2) 0)) := by
  have h := c1_orthonormal_after_public_mutations 2 (by norm_num) (identityMat 2) 0
    (identityMat 2 0)
  refine ⟨h.1 (identityMat_linearIndependent 2), h.2.1 ?_, h.2.2 ?_⟩
  · rw [Function.update_eq_self]
    exact identityMat_linearIndependent 2
  · exact tol_of_orthonormal (identityMat_orthonormal 2)

/-- C3: for `ndim ≥ 3`, after any single `setAxis` call the dot product of
the pre-call and post-call column-2 vectors is nonnegative — a single axis
edit never flips the depth sign. -/
theorem c3_sign_stability :
    ∀ (n : ℕ) (h3 : 3 ≤ n) (M : Mat n) (i : Fin n) (v : Vec n),
      0 ≤ dot (column (getMatrix M) ⟨2, by omega⟩)
        (column (getMatrix (setAxis M i v)) ⟨2, by omega⟩) := by
  intro n h3 M i v
  unfold setAxis getMatrix
  rw [dif_pos h3]
  by_cases hneg :
      dot (column M ⟨2, by omega⟩)
        (column (orthogonalize (Function.update M i v) i) ⟨2, by omega⟩) < 0
  · rw [if_pos hneg, column_negCol2, dot_neg_right]
    linarith
  · rw [if_neg hneg]
    exact le_of_not_lt hneg

/-- Witness for C3 at a concrete input: `setAxis(0, e₀)` on the
3-dimensional identity basis. -/
theorem c3_witness :
    0 ≤ dot (column (getMatrix (identityMat 3)) ⟨2, by omega⟩)
      (column (getMatrix (setAxis (identityMat 3) 0 (identityMat 3 0))) ⟨2, by omega⟩) :=
  c3_sign_stability 3 (by norm_num) (identityMat 3) 0 (identityMat 3 0)

/-- C9: `flipAxis(i)` negates exactly row `i` and leaves every other row
unchanged; applying it twice restores the matrix exactly; it preserves every
row's norm and the magnitude of every pairwise row dot product; and it
preserves exact orthonormality. -/
theorem c9_flipAxis_involution :
    ∀ (n : ℕ) (M : Mat n) (i : Fin n),
      (flipAxis M i i = fun j => -(M i j)) ∧
        (∀ j, j ≠ i → flipAxis M i j = M j) ∧
        flipAxis (flipAxis M i) i = M ∧
        (∀ j, norm2 (flipAxis M i j) = norm2 (M j)) ∧
        (∀ a b, |dot (flipAxis M i a) (flipAxis M i b)| = |dot (M a) (M b)|) ∧
        (OrthonormalRows M → OrthonormalRows (flipAxis M i)) := by
  intro n M i
  have hflipdot : ∀ a b, dot (flipAxis M i a) (flipAxis M i b) =
      (if a = i then (-1 : ℝ) else 1) * (if b = i then (-1 : ℝ) else 1) *
        dot (M a) (M b) := dot_flipAxis M i
  refine ⟨flipAxis_apply_self M i, fun j hj => flipAxis_apply_other M hj, ?_, ?_, ?_, ?_⟩
  · funext p
    by_cases hp : p = i
    · subst hp
      rw [flipAxis_apply_self]
      funext j
      rw [flipAxis_apply_self]
      exact neg_neg (M p j)
    · rw [flipAxis_apply_other _ hp, flipAxis_apply_other _ hp]
  · intro j
    unfold norm2
    rw [hflipdot j j]
    by_cases hj : j = i <;> simp [hj]
  · intro a b
    rw [hflipdot a b]
    by_cases ha : a = i <;> by_cases hb : b = i <;> simp [ha, hb, abs_mul]
  · intro h a b
    rw [hflipdot a b, h a b]
    by_cases hab : a = b
    · subst hab
      by_cases ha : a = i <;> simp [ha]
    · simp [hab]

/-- Witness for C9 at a concrete input: flipping axis 0 of the 2-dimensional
identity basis. -/
theorem c9_witness :
    flipAxis (identityMat 2) 0 1 = identityMat 2 1 ∧
      OrthonormalRows (flipAxis (identityMat 2) 0) := by
  have h := c9_flipAxis_involution 2 (identityMat 2) 0
  exact ⟨h.2.1 1 (by decide), h.2.2.2.2.2 (identityMat_orthonormal 2)⟩

/-- Counterexample to C2 as stated: on the 3-dimensional identity basis
(linearly independent rows), `setAxis(2, -e₂)` with the nonzero vector `-e₂`
does *not* leave row 2 equal to the normalized input `-e₂` — the
sign-stability correction negates the new column 2, so row 2 comes out as
`+e₂`. -/
theorem c2_counterexample :
    LinearIndependent ℝ (identityMat 3) ∧ vFlip ≠ 0 ∧
      setAxis (identityMat 3) 2 vFlip 2 ≠ normalizeVec vFlip := by
  refine ⟨identityMat_linearIndependent 3, ?_, ?_⟩
  · intro hz
    have h := congrFun hz 2
    norm_num [vFlip] at h
  · have hvunit : dot vFlip vFlip = 1 := by norm_num [dot, vFlip, Fin.sum_univ_three]
    have hcond : dot (column (identityMat 3) ⟨2, by omega⟩)
        (column (orthogonalize (Function.update (identityMat 3) 2 vFlip) 2)
          ⟨2, by omega⟩) < 0 := by
      rw [orth_flip_eval]
      norm_num [column, dot, Fin.sum_univ_three, Function.update_apply, identityMat,
        vFlip, Fin.ext_iff]
    have hval : setAxis (identityMat 3) 2 vFlip 2 2 = 1 := by
      unfold setAxis
      rw [dif_pos (by norm_num : 3 ≤ 3), if_pos hcond, orth_flip_eval]
      norm_num [negCol2, Function.update_apply, vFlip, Fin.ext_iff]
    intro heq
    have h := congrFun heq 2
    rw [hval, normalizeVec_of_unit hvunit] at h
    norm_num [vFlip] at h

/-- C2 amended: after `setAxis(i, v)` with linearly independent rows, an
in-range index, and nonzero `v`, row `i` equals `v / ‖v‖` in every entry
except possibly entry 2, which is negated exactly when the sign-stability
correction fires (the old and re-orthogonalized column-2 vectors have
negative dot product); when the correction does not fire the row equals
`v / ‖v‖` outright. -/
theorem c2_amended_direction_up_to_zflip :
    ∀ (n : ℕ) (M : Mat n) (i : Fin n) (v : Vec n),
      LinearIndependent ℝ M → v ≠ 0 →
      (¬ setAxisFlips M i v → setAxis M i v i = fun t => v t / norm2 v) ∧
        (∀ t : Fin n, (t : ℕ) ≠ 2 → setAxis M i v i t = v t / norm2 v) ∧
        (setAxisFlips M i v → ∀ t : Fin n, (t : ℕ) = 2 →
          setAxis M i v i t = -(v t / norm2 v)) := by
  intro n M i v _ hv
  have h := setAxis_row M i v
  rw [normalizeVec_of_ne_zero hv] at h
  exact h

/-- Witness for the amended C2 at a concrete input: `setAxis(0, e₀)` on the
3-dimensional identity basis, where the correction does not fire. -/
theorem c2_witness :
    setAxis (identityMat 3) 0 (identityMat 3 0) 0 =
      fun t => identityMat 3 0 t / norm2 (identityMat 3 0) := by
  have hv : identityMat 3 0 ≠ 0 := by
    intro hz
    have h := congrFun hz 0
    norm_num [identityMat] at h
  have h := c2_amended_direction_up_to_zflip 3 (identityMat 3) 0 (identityMat 3 0)
    (identityMat_linearIndependent 3) hv
  refine h.1 ?_
  unfold setAxisFlips
  rw [dif_pos (by norm_num : 3 ≤ 3), Function.update_eq_self,
    orthogonalize_fix (identityMat_orthonormal 3)]
  norm_num [column, dot, Fin.sum_univ_three, identityMat, Fin.ext_iff]

/-- Counterexample to C4 as stated: on `mMix` (linearly independent rows) with
priority row 2, the code's `orthogonalize` — which processes the remaining
rows in the swapped order `1, 0` — differs from the spec's reference that
processes them in increasing order `0, 1`. -/
theorem c4_counterexample :
    LinearIndependent ℝ mMix ∧ orthogonalize mMix 2 ≠ specMGS mMix 2 := by
  refine ⟨mMix_linearIndependent, ?_⟩
  intro heq
  have h := congrFun (congrFun heq 0) 0
  rw [orth_mMix, Function.update_same, spec_mMix_row0] at h
  have hn2 : norm2 (mMix 0) = Real.sqrt 2 := by
    unfold norm2
    rw [show dot (mMix 0) (mMix 0) = 2 from by norm_num [dot, mMix, Fin.sum_univ_three]]
  rw [hn2] at h
  have hs2pos : (0 : ℝ) < Real.sqrt 2 := Real.sqrt_pos.2 (by norm_num)
  have hpos : mMix 0 0 / Real.sqrt 2 > 0 := by
    apply div_pos _ hs2pos
    norm_num [mMix]
  rw [show (![0, 1, 0] : Vec 3) 0 = 0 from by norm_num] at h
  linarith [h, hpos]

/-- `#markDirty` is idempotent: a second synchronous call is always a no-op
(either rendering is disabled, or a frame is already pending). -/
theorem markDirty_idem (s : SchedState) : markDirty (markDirty s) = markDirty s := by
  unfold markDirty
  by_cases h : (!s.playing || s.pending) = true
  · rw [if_pos h, if_pos h]
  · rw [if_neg h]
    have h2 : (!({ s with pending := true } : SchedState).playing ||
        ({ s with pending := true } : SchedState).pending) = true := by
      simp
    rw [if_pos h2]

theorem markDirty_iterate (s : SchedState) :
    ∀ N : ℕ, 1 ≤ N → markDirty^[N] s = markDirty s := by
  intro N
  induction N with
  | zero => intro h; exact absurd h (by norm_num)
  | succ n ih =>
      intro _
      rcases Nat.eq_zero_or_pos n with hn | hn
      · subst hn
        rw [Function.iterate_one]
      · rw [Function.iterate_succ_apply', ih hn, markDirty_idem]

/-- While paused (not playing, nothing pending), no sequence of dirty-marking
calls and frame callbacks changes the state at all. -/
theorem schedRun_paused :
    ∀ (evs : List SchedEv) (s : SchedState), s.playing = false → s.pending = false →
      schedRun s evs = s := by
  intro evs
  induction evs with
  | nil => intro s _ _; rfl
  | cons e rest ih =>
      intro s hp hpe
      cases e
      · show schedRun (markDirty s) rest = s
        have hmd : markDirty s = s := by
          unfold markDirty
          rw [if_pos (by rw [hp]; simp)]
        rw [hmd]
        exact ih s hp hpe
      · show schedRun (fireFrame s) rest = s
        have hff : fireFrame s = s := by
          unfold fireFrame
          rw [if_neg (by rw [hpe]; simp)]
        rw [hff]
        exact ih s hp hpe

/-- C6: N ≥ 1 synchronous dirty-marking mutations between two scheduled frame
callbacks produce exactly one frame build; `markDirty` only schedules when
playing with nothing pending; the frame callback clears the pending flag and
builds at most one frame; and `pause` cancels the pending callback so that no
frame is built by any later events until `play`. -/
theorem c6_render_scheduling :
    ∀ (s : SchedState) (N : ℕ), 1 ≤ N →
      (s.playing = true → s.pending = false →
        (fireFrame (markDirty^[N] s)).frames = s.frames + 1 ∧
          (fireFrame (markDirty^[N] s)).pending = false) ∧
        (¬(s.playing = true ∧ s.pending = false) → markDirty s = s) ∧
        ((fireFrame s).frames ≤ s.frames + 1 ∧ (fireFrame s).pending = false) ∧
        ((pause s).pending = false ∧
          ∀ evs : List SchedEv, (schedRun (pause s) evs).frames = s.frames) := by
  intro s N hN
  refine ⟨?_, ?_, ⟨?_, ?_⟩, ?_, ?_⟩
  · intro hp hpe
    rw [markDirty_iterate s N hN]
    have hmd : markDirty s = { s with pending := true } := by
      unfold markDirty
      rw [if_neg (by rw [hp, hpe]; simp)]
    rw [hmd]
    unfold fireFrame
    rw [if_pos rfl]
    constructor
    · show s.frames + (if s.playing = true then 1 else 0) = s.frames + 1
      rw [if_pos hp]
    · rfl
  · intro hnot
    unfold markDirty
    cases hpl : s.playing with
    | false => rw [if_pos (by simp)]
    | true =>
        cases hpe : s.pending with
        | true => rw [if_pos (by simp)]
        | false => exact absurd ⟨hpl, hpe⟩ hnot
  · unfold fireFrame
    by_cases h : s.pending = true
    · rw [if_pos h]
      show s.frames + (if s.playing = true then 1 else 0) ≤ s.frames + 1
      by_cases hp : s.playing = true <;> simp [hp]
    · rw [if_neg h]
      exact Nat.le_succ _
  · unfold fireFrame
    by_cases h : s.pending = true
    · rw [if_pos h]
    · rw [if_neg h]
      cases hpe : s.pending with
      | false => rfl
      | true => exact absurd hpe h
  · rfl
  · intro evs
    rw [schedRun_paused evs (pause s) rfl rfl]
    rfl

/-- Witness for C6 at concrete inputs: three synchronous dirty marks from the
idle playing state yield exactly one frame; pausing a state with a pending
frame cancels it and later events build nothing. -/
theorem c6_witness :
    (fireFrame (markDirty^[3] ⟨true, false, 0⟩)).frames = 0 + 1 ∧
      (pause ⟨true, true, 5⟩).pending = false ∧
      (schedRun (pause ⟨true, true, 5⟩)
        [SchedEv.dirty, SchedEv.frame, SchedEv.dirty]).frames = 5 := by
  have h1 := c6_render_scheduling ⟨true, false, 0⟩ 3 (by norm_num)
  have h2 := c6_render_scheduling ⟨true, true, 5⟩ 3 (by norm_num)
  exact ⟨(h1.1 rfl rfl).1, h2.2.2.2.1, h2.2.2.2.2 _⟩

/-- C5: `pointsInPolygon` returns the empty list for polygons of fewer than 3
vertices; otherwise it returns exactly the `order[si]` of the slots
`si < npoint` whose position is strictly inside the polygon by
crossing-number parity (the bounding-box pre-filter never changes the
result); entries of `positions` at index `2·npoint` or beyond never affect
the result; and on the test suite's square and L-shaped polygons it reports
`(50,50)` but not `(150,150)`, and `(25,25)` but not `(75,75)`. -/
theorem c5_pointsInPolygon_contract :
    (∀ (positions : List ℚ) (npoint : ℕ) (polygon : List (ℚ × ℚ)) (order : List ℕ),
        (polygon.length < 3 → pointsInPolygon positions npoint polygon order = []) ∧
          (3 ≤ polygon.length →
            pointsInPolygon positions npoint polygon order =
              parityInside positions npoint polygon order) ∧
          pointsInPolygon (positions.take (2 * npoint)) npoint polygon order =
            pointsInPolygon positions npoint polygon order) ∧
      pointsInPolygon [50, 50, 150, 150] 2 squareTest [0, 1] = [0] ∧
      pointsInPolygon [25, 25, 75, 75] 2 lshapeTest [0, 1] = [0] := by
  refine ⟨fun positions npoint polygon order => ⟨?_, ?_, ?_⟩, ?_, ?_⟩
  · intro h3
    unfold pointsInPolygon
    rw [if_pos h3]
  · exact pointsInPolygon_eq_parityInside positions npoint polygon order
  · exact pointsInPolygon_take positions npoint polygon order
  · norm_num [pointsInPolygon, squareTest, rayCast, rayCastAux, edgeCross, listMin,
      listMax, List.range_succ, List.getD]
  · norm_num [pointsInPolygon, lshapeTest, rayCast, rayCastAux, edgeCross, listMin,
      listMax, List.range_succ, List.getD]

/-- Witness for C5 at concrete inputs: the degenerate empty polygon, and the
square polygon where the filtered result equals the pure parity result. -/
theorem c5_witness :
    pointsInPolygon [50, 50] 1 [] [0] = [] ∧
      pointsInPolygon [50, 50, 150, 150] 2 squareTest [0, 1] =
        parityInside [50, 50, 150, 150] 2 squareTest [0, 1] := by
  have h := c5_pointsInPolygon_contract.1
  exact ⟨(h [50, 50] 1 [] [0]).1 (by norm_num),
    (h [50, 50, 150, 150] 2 squareTest [0, 1]).2.1 (by norm_num [squareTest])⟩

/-- Counterexample to C7 as stated: a category-visible point at depth exactly
`z = cameraZ` with no lasso active gets full opacity `255` from the frame
builder, while the claim's "at or beyond `cameraZ`" rule would give `0`. -/
theorem c7_counterexample :
    lassoPointAlpha true 5 5 false false = 255 ∧
      claimC7Alpha true 5 5 false false = 0 ∧
      lassoPointAlpha true 5 5 false false ≠ claimC7Alpha true 5 5 false false := by
  norm_num [lassoPointAlpha, pointAlpha, claimC7Alpha]

/-- C7 amended: in every built frame a point's visibility alpha is `0` when
its category is hidden, `0` when it is *strictly* behind the camera
(`z > cameraZ`; at exactly `cameraZ` it keeps full opacity), else full
opacity `255`, dimmed to 10% of its value when a lasso selection is active
and the point is not selected. -/
theorem c7_amended_alpha :
    ∀ (catVisible : Bool) (cameraZ z : ℝ) (lassoActive selected : Bool),
      lassoPointAlpha catVisible cameraZ z lassoActive selected =
        strictC7Alpha catVisible cameraZ z lassoActive selected := by
  intro cv cz z la sel
  unfold lassoPointAlpha pointAlpha strictC7Alpha
  cases cv <;> cases la <;> cases sel <;> by_cases h : cz < z <;> simp [h]

/-- C8: the perspective depth-scale is the formula
`focalLength / (focalLength + (cameraZ - z))` clamped to
`[minDepthScale, 1]`, so every returned factor lies in that interval; and the
per-point `Projection.depthScale` variant returns `1` for every point when
`ndim < 3`. -/
theorem c8_depthScale_clamped :
    ∀ (cameraZ focalLength minDepthScale z : ℝ), 0 < focalLength →
      0 < minDepthScale → minDepthScale ≤ 1 →
      (cameraDepthScale cameraZ focalLength minDepthScale z =
          max minDepthScale (min 1 (focalLength / (focalLength + (cameraZ - z)))) ∧
        minDepthScale ≤ cameraDepthScale cameraZ focalLength minDepthScale z ∧
        cameraDepthScale cameraZ focalLength minDepthScale z ≤ 1) ∧
      ∀ (n : ℕ) (M : Mat n) (data : List (Vec n)) (x : ℝ), n < 3 →
        x ∈ projDepthScale M data cameraZ focalLength minDepthScale → x = 1 := by
  intro cz f m z _ hm hm1
  constructor
  · unfold cameraDepthScale
    set scale := f / (f + (cz - z)) with hscale
    by_cases h1 : scale < m
    · rw [if_pos h1]
      have hmin : min 1 scale = scale := min_eq_right (by linarith)
      rw [hmin, max_eq_left (le_of_lt h1)]
      exact ⟨rfl, le_refl m, hm1⟩
    · rw [if_neg h1]
      by_cases h2 : 1 < scale
      · rw [if_pos h2, min_eq_left (le_of_lt h2), max_eq_right hm1]
        exact ⟨rfl, hm1, le_refl 1⟩
      · rw [if_neg h2, min_eq_right (le_of_not_lt h2),
          max_eq_right (le_of_not_lt h1)]
        exact ⟨rfl, le_of_not_lt h1, le_of_not_lt h2⟩
  · intro n M data x h3 hx
    unfold projDepthScale at hx
    rw [dif_neg (by omega : ¬ 3 ≤ n)] at hx
    obtain ⟨_, _, hval⟩ := List.mem_map.1 hx
    exact hval.symm

/-- Witness for C8 at concrete inputs: camera at `z = 5`, focal length `1`,
minimum `1/2`, point depth `0`; and a 2-dimensional projection. -/
theorem c8_witness :
    cameraDepthScale 5 1 (1 / 2) 0 =
        max (1 / 2) (min 1 (1 / (1 + (5 - 0)))) ∧
      ∀ x ∈ projDepthScale (identityMat 2) [identityMat 2 0] 5 1 (1 / 2), x = 1 := by
  have h := c8_depthScale_clamped 5 1 (1 / 2) 0 (by norm_num) (by norm_num) (by norm_num)
  exact ⟨h.1.1, fun x hx => h.2 2 (identityMat 2) [identityMat 2 0] x (by norm_num) hx⟩

/-- C10: with `focalLength > 0` and `0 < minDepthScale ≤ 1`, every depth in
`[cameraZ, cameraZ + focalLength)` yields factor exactly `1`, and every depth
strictly more than one focal length behind the camera yields exactly
`minDepthScale` — the factor drops discontinuously across the singularity. -/
theorem c10_depthScale_piecewise :
    ∀ (cameraZ focalLength minDepthScale z : ℝ), 0 < focalLength →
      0 < minDepthScale → minDepthScale ≤ 1 →
      (cameraZ ≤ z → z < cameraZ + focalLength →
        cameraDepthScale cameraZ focalLength minDepthScale z = 1) ∧
      (cameraZ + focalLength < z →
        cameraDepthScale cameraZ focalLength minDepthScale z = minDepthScale) := by
  intro cz f m z hf hm hm1
  constructor
  · intro hz1 hz2
    unfold cameraDepthScale
    set scale := f / (f + (cz - z)) with hscale
    have hden : 0 < f + (cz - z) := by linarith
    have hge1 : 1 ≤ scale := by
      rw [hscale, le_div_iff hden]
      linarith
    rw [if_neg (by linarith : ¬ scale < m)]
    by_cases h2 : 1 < scale
    · rw [if_pos h2]
    · rw [if_neg h2]
      linarith [le_of_not_lt h2]
  · intro hz
    unfold cameraDepthScale
    set scale := f / (f + (cz - z)) with hscale
    have hden : f + (cz - z) < 0 := by linarith
    have hneg : scale < 0 := div_neg_of_pos_of_neg hf hden
    rw [if_pos (by linarith : scale < m)]

/-- Witness for C10 at concrete inputs: camera at `0`, focal length `1`,
minimum `1/2`, depths `0` (in front, factor `1`) and `2` (far behind,
factor `1/2`). -/
theorem c10_witness :
    cameraDepthScale 0 1 (1 / 2) 0 = 1 ∧ cameraDepthScale 0 1 (1 / 2) 2 = 1 / 2 := by
  have ha := c10_depthScale_piecewise 0 1 (1 / 2) 0 (by norm_num) (by norm_num)
    (by norm_num)
  have hb := c10_depthScale_piecewise 0 1 (1 / 2) 2 (by norm_num) (by norm_num)
    (by norm_num)
  exact ⟨ha.1 (by norm_num) (by norm_num), hb.2 (by norm_num)⟩

/-- C4 amended: `orthogonalize(matrix, k)` equals the ordered modified
Gram-Schmidt reference in which row `k` is normalized first and otherwise
left unchanged in direction, and the other rows are processed in the order
the swap of rows `0` and `k` induces — original rows
`1, …, k-1, 0, k+1, …, n-1` — each orthogonalized against all previously
processed rows before being normalized, zero-norm rows left as-is. -/
theorem c4_amended_orthogonalize_order :
    ∀ (n : ℕ) (M : Mat n) (k : Fin n),
      orthogonalize M k = mgsOrdered M (codeOrder k) ∧
        orthogonalize M k k = normalizeVec (M k) := fun _ M k =>
  ⟨orthogonalize_eq_mgsOrdered M k, orthogonalize_priority_row M k⟩

end Grandscatter
